import Mathlib

/-!
Shallow embedding of the wordlehelper candidate-filtering engine
(src/main.rs and src/filter.rs) and proofs of its specification
properties.  Strings are modelled as lists of characters, matching the
char-by-char processing of the source; the out-of-bounds playfield
access in solve is modelled by an Option-valued result.
-/

namespace Wordlehelper

/-- Game language (main.rs, enum GameLanguage). -/
inductive GameLanguage where
  | swedish
  | english

/-- Playfield size (main.rs, enum GameLength). -/
inductive GameLength where
  | five
  | six

/-- Game state (main.rs, struct Game): the language, the playfield size,
the playfield marks (uppercase letter = locked in place, lowercase letter
= present but misplaced, anything else = unknown slot) and the letters
reported absent from the word. -/
structure Game where
  language : GameLanguage
  length : GameLength
  playfield : List Char
  wrongLetters : List Char

/-- Candidate words, iterated as character sequences. -/
abbrev Word := List Char

/-- Models char::is_uppercase on the Latin-1 repertoire the dictionaries
of the program use: ASCII capitals plus the accented capitals from À to Þ
(the multiplication sign excepted). -/
def is_uppercase (c : Char) : Bool :=
  (decide (65 ≤ c.toNat) && decide (c.toNat ≤ 90)) ||
  (decide (192 ≤ c.toNat) && decide (c.toNat ≤ 222) && decide (c.toNat ≠ 215))

/-- Models char::is_lowercase on the same repertoire: ASCII small letters
plus the accented small letters from à to þ (the division sign excepted). -/
def is_lowercase (c : Char) : Bool :=
  (decide (97 ≤ c.toNat) && decide (c.toNat ≤ 122)) ||
  (decide (224 ≤ c.toNat) && decide (c.toNat ≤ 254) && decide (c.toNat ≠ 247))

/-- Models char::to_lowercase on that repertoire, where the mapping is a
single character 32 code points above the capital. -/
def to_lowercase (c : Char) : Char :=
  if is_uppercase c then Char.ofNat (c.toNat + 32) else c

/-- Models char::to_uppercase on that repertoire, where the mapping is a
single character 32 code points below the small letter. -/
def to_uppercase (c : Char) : Char :=
  if is_lowercase c then Char.ofNat (c.toNat - 32) else c

/-- Locked-slot test of solve (main.rs lines 208-209): the playfield mark
is an uppercase letter and the word letter differs from its lowercase form. -/
def locked_reject (pf letter : Char) : Bool :=
  is_uppercase pf && !(letter == to_lowercase pf)

/-- Misplaced-letter test of solve (main.rs lines 214-215): the mark is a
lowercase letter missing from the word, or the word repeats the mark in
the very slot it was reported misplaced in. -/
def misplaced_reject (w : Word) (pf letter : Char) : Bool :=
  (is_lowercase pf && !(w.contains pf)) || letter == pf

/-- Wrong-letters test of solve (main.rs lines 222-224): the letter was
reported absent, its uppercase form is not the mark of this very slot, and
it occurs nowhere in the playfield as an exact (hence lowercase) mark. -/
def wrong_letter_reject (g : Game) (pf letter : Char) : Bool :=
  g.wrongLetters.any (fun c => c == letter) &&
  !(to_uppercase letter == pf) &&
  !(g.playfield.any (fun c => c == letter))

/-- The inner slot loop of solve: examines the letters of rest, which sit
at positions index, index + 1, ... of the word w.  Some false means the
word is dropped (the continue to the word loop), none models the panic on
an out-of-bounds playfield access. -/
def check_slots (g : Game) (w : Word) : Nat → Word → Option Bool
  | _, [] => some true
  | index, letter :: rest =>
    match g.playfield[index]? with
    | none => none
    | some pf =>
      if locked_reject pf letter then some false
      else if misplaced_reject w pf letter then some false
      else if wrong_letter_reject g pf letter then some false
      else check_slots g w (index + 1) rest

/-- Whether solve keeps the word w: the body of the labelled word loop. -/
def keeps (g : Game) (w : Word) : Option Bool :=
  check_slots g w 0 w

/-- Embedding of solve (main.rs lines 203-233): keeps the candidate words consistent
with the playfield and the wrong-letter set; none models a panic on an
out-of-bounds playfield access. -/
def solve (g : Game) : List Word → Option (List Word)
  | [] => some []
  | w :: rest =>
    match keeps g w with
    | none => none
    | some k =>
      match solve g rest with
      | none => none
      | some rest_out => some (if k then w :: rest_out else rest_out)

/-- Per-language high-frequency letters (filter.rs lines 25-28). -/
def common_letters : GameLanguage → List Char
  | .swedish => ['e', 'a', 'n', 'r', 't', 's', 'i', 'l', 'd']
  | .english => ['e', 't', 'a', 'o', 'i', 'n', 's', 'h', 'l']

/-- High-frequency letters still used for scoring: the retain call of
filter.rs line 32 drops a letter exactly when its ASCII-uppercase form, a
locked mark, occurs in the playfield. -/
def filtered_common_letters (g : Game) : List Char :=
  (common_letters g.language).filter (fun f => !(g.playfield.contains f.toUpper))

/-- The high-frequency letters of the list filtered occurring in the word
(filter.rs lines 35-38). -/
def hits (filtered : List Char) (w : Word) : List Char :=
  filtered.filter (fun c => w.contains c)

/-- The entry api of the hash map, entry(n).or_insert(Vec::new()).push(w),
on an association list keeping entries in insertion order of their keys. -/
def insert_group : List (Nat × List Word) → Nat → Word → List (Nat × List Word)
  | [], k, w => [(k, [w])]
  | (j, v) :: rest, k, w =>
    if j = k then (j, v ++ [w]) :: rest else (j, v) :: insert_group rest k w

/-- The grouping loop of words_with_common_letters (filter.rs lines
34-45): words with a nonzero hit count are grouped under that count. -/
def build_groups (filtered : List Char) : List (Nat × List Word) → List Word → List (Nat × List Word)
  | m, [] => m
  | m, w :: rest =>
    build_groups filtered
      (if !(hits filtered w).isEmpty then insert_group m (hits filtered w).length w else m)
      rest

/-- The fold behind max_by_key on the map entries: a later entry replaces
the current best when its key is at least as large, so the last maximum
wins; with the distinct keys of a map the choice is forced anyway. -/
def max_by_key_entry : Nat × List Word → List (Nat × List Word) → Nat × List Word
  | best, [] => best
  | best, e :: rest => max_by_key_entry (if best.1 ≤ e.1 then e else best) rest

/-- Selection by max_by_key over a possibly empty entry sequence (filter.rs lines 47-50). -/
def max_entry : List (Nat × List Word) → Option (Nat × List Word)
  | [] => none
  | e :: rest => some (max_by_key_entry e rest)

/-- The final selection of words_with_common_letters (filter.rs lines
51-55): the group of the maximal key when the map is nonempty, the whole
input otherwise. -/
def pick_max_group (ws : List Word) (m : List (Nat × List Word)) : List Word :=
  match max_entry m with
  | some e => e.2
  | none => ws

/-- Embedding of words_with_common_letters (filter.rs lines 24-56), the hash map
modelled as an insertion-ordered association list; independence from the
entry order is proved separately. -/
def words_with_common_letters (ws : List Word) (g : Game) : List Word :=
  pick_max_group ws (build_groups (filtered_common_letters g) [] ws)

/-- Per-language uncommon letters (filter.rs lines 59-62). -/
def uncommon_letters : GameLanguage → List Char
  | .swedish => ['q', 'z', 'w', 'x', 'j', 'y']
  | .english => ['z', 'q', 'x', 'j', 'v', 'b']

/-- Uncommon letters still counted against a word: the retain call of
filter.rs line 65 drops a letter exactly when the letter itself, in its
lowercase form, occurs in the playfield. -/
def used_uncommon_letters (g : Game) : List Char :=
  (uncommon_letters g.language).filter (fun f => !(g.playfield.contains f))

/-- Embedding of words_without_uncommon_letters (filter.rs lines 58-76): keeps the
words containing none of the remaining uncommon letters. -/
def words_without_uncommon_letters (g : Game) : List Word → List Word
  | [] => []
  | w :: rest =>
    if !((used_uncommon_letters g).any (fun c => w.contains c)) then
      w :: words_without_uncommon_letters g rest
    else
      words_without_uncommon_letters g rest

/-- Score of a word: how many of the remaining high-frequency letters it
contains. -/
def score (filtered : List Char) (w : Word) : Nat :=
  (hits filtered w).length

/-- The maximal score over a candidate list (zero on an empty list). -/
def max_score (filtered : List Char) (ws : List Word) : Nat :=
  ws.foldl (fun acc w => Nat.max acc (score filtered w)) 0

/-- High-frequency pool as claim C6 words it, modelled from the spec: the
fixed list minus every letter present anywhere in the playfield, be the
occurrence an uppercase locked mark or a lowercase misplaced mark. -/
def filtered_common_letters_per_claim (g : Game) : List Char :=
  (common_letters g.language).filter
    (fun f => !(g.playfield.contains f.toUpper || g.playfield.contains f))

/-- Variant of words_with_common_letters as claim C6 words it, modelled from the
spec: score by the per-claim pool and return exactly the maximum-score
group. -/
def words_with_common_letters_per_claim (ws : List Word) (g : Game) : List Word :=
  ws.filter (fun w =>
    score (filtered_common_letters_per_claim g) w ==
      max_score (filtered_common_letters_per_claim g) ws)

/-- Rejection list as claim C7 words it, modelled from the spec: the fixed
uncommon list minus every letter present anywhere in the playfield, be the
occurrence an uppercase locked mark or a lowercase misplaced mark. -/
def used_uncommon_letters_per_claim (g : Game) : List Char :=
  (uncommon_letters g.language).filter
    (fun f => !(g.playfield.contains f.toUpper || g.playfield.contains f))

/-- Variant of words_without_uncommon_letters as claim C7 words it, modelled from the
spec: keep a word exactly when it contains none of the per-claim remaining
uncommon letters. -/
def words_without_uncommon_letters_per_claim (g : Game) (ws : List Word) : List Word :=
  ws.filter (fun w => !((used_uncommon_letters_per_claim g).any (fun c => w.contains c)))

/-- Keys of the grouped entries, in order. -/
def entry_keys (m : List (Nat × List Word)) : List Nat :=
  m.map Prod.fst

/-- Lookup of a key among the grouped entries. -/
def lookup_group : List (Nat × List Word) → Nat → Option (List Word)
  | [], _ => none
  | (j, v) :: rest, k => if j = k then some v else lookup_group rest k

/-- Characterization of a successful slot scan: every remaining letter
finds its playfield mark and passes the three rejection tests. -/
lemma check_slots_eq_some_true (g : Game) (w : Word) :
    ∀ (rest : Word) (index : Nat),
      check_slots g w index rest = some true ↔
        ∀ j letter, rest[j]? = some letter →
          ∃ pf, g.playfield[index + j]? = some pf ∧
            locked_reject pf letter = false ∧
            misplaced_reject w pf letter = false ∧
            wrong_letter_reject g pf letter = false
  | [], index => by
    constructor
    · intro _ j letter hj
      simp at hj
    · intro _
      rfl
  | letter :: rest, index => by
    cases hpf : g.playfield[index]? with
    | none =>
      have hL : check_slots g w index (letter :: rest) = none := by
        simp [check_slots, hpf]
      rw [hL]
      constructor
      · intro h
        simp at h
      · intro h
        rcases h 0 letter (by simp) with ⟨pf, hpf0, -⟩
        rw [Nat.add_zero, hpf] at hpf0
        simp at hpf0
    | some pf =>
      by_cases h1 : locked_reject pf letter = true
      · have hL : check_slots g w index (letter :: rest) = some false := by
          simp [check_slots, hpf, h1]
        rw [hL]
        constructor
        · intro h
          simp at h
        · intro h
          rcases h 0 letter (by simp) with ⟨pf2, hpf0, hl, -, -⟩
          rw [Nat.add_zero, hpf] at hpf0
          injection hpf0 with hpf0
          subst hpf0
          simp [h1] at hl
      · have h1f : locked_reject pf letter = false := by simpa using h1
        by_cases h2 : misplaced_reject w pf letter = true
        · have hL : check_slots g w index (letter :: rest) = some false := by
            simp [check_slots, hpf, h1f, h2]
          rw [hL]
          constructor
          · intro h
            simp at h
          · intro h
            rcases h 0 letter (by simp) with ⟨pf2, hpf0, -, hm, -⟩
            rw [Nat.add_zero, hpf] at hpf0
            injection hpf0 with hpf0
            subst hpf0
            simp [h2] at hm
        · have h2f : misplaced_reject w pf letter = false := by simpa using h2
          by_cases h3 : wrong_letter_reject g pf letter = true
          · have hL : check_slots g w index (letter :: rest) = some false := by
              simp [check_slots, hpf, h1f, h2f, h3]
            rw [hL]
            constructor
            · intro h
              simp at h
            · intro h
              rcases h 0 letter (by simp) with ⟨pf2, hpf0, -, -, hwl⟩
              rw [Nat.add_zero, hpf] at hpf0
              injection hpf0 with hpf0
              subst hpf0
              simp [h3] at hwl
          · have h3f : wrong_letter_reject g pf letter = false := by simpa using h3
            have hL : check_slots g w index (letter :: rest) =
                check_slots g w (index + 1) rest := by
              simp [check_slots, hpf, h1f, h2f, h3f]
            rw [hL, check_slots_eq_some_true g w rest (index + 1)]
            constructor
            · intro h j l hj
              cases j with
              | zero =>
                rw [List.getElem?_cons_zero] at hj
                injection hj with hj
                subst hj
                exact ⟨pf, by simpa using hpf, h1f, h2f, h3f⟩
              | succ j =>
                rw [List.getElem?_cons_succ] at hj
                have harith : index + (j + 1) = index + 1 + j := by omega
                rw [harith]
                exact h j l hj
            · intro h j l hj
              have hstep := h (j + 1) l (by rw [List.getElem?_cons_succ]; exact hj)
              have harith : index + (j + 1) = index + 1 + j := by omega
              rw [harith] at hstep
              exact hstep

/-- The slot scan cannot hit the out-of-bounds branch when every examined
position lies inside the playfield. -/
lemma check_slots_isSome (g : Game) (w : Word) :
    ∀ (rest : Word) (index : Nat),
      (∀ j, j < rest.length → index + j < g.playfield.length) →
      (check_slots g w index rest).isSome = true
  | [], _ => fun _ => by simp [check_slots]
  | letter :: rest, index => fun h => by
    have h0 : index < g.playfield.length := by
      have := h 0 (by simp)
      simpa using this
    have hpf : g.playfield[index]? = some g.playfield[index] :=
      List.getElem?_eq_getElem h0
    by_cases h1 : locked_reject g.playfield[index] letter = true
    · simp [check_slots, hpf, h1]
    · have h1f : locked_reject g.playfield[index] letter = false := by simpa using h1
      by_cases h2 : misplaced_reject w g.playfield[index] letter = true
      · simp [check_slots, hpf, h1f, h2]
      · have h2f : misplaced_reject w g.playfield[index] letter = false := by simpa using h2
        by_cases h3 : wrong_letter_reject g g.playfield[index] letter = true
        · simp [check_slots, hpf, h1f, h2f, h3]
        · have h3f : wrong_letter_reject g g.playfield[index] letter = false := by
            simpa using h3
          have hrec := check_slots_isSome g w rest (index + 1) (fun j hj => by
            have := h (j + 1) (by simpa using Nat.succ_lt_succ hj)
            omega)
          simpa [check_slots, hpf, h1f, h2f, h3f] using hrec

/-- Since solve examines the words in order, a defined result certifies that
the keep test of every input word was itself defined. -/
lemma keeps_isSome_of_solve (g : Game) :
    ∀ (ws out : List Word), solve g ws = some out →
      ∀ w ∈ ws, (keeps g w).isSome = true
  | [], _, _, w, hw => absurd hw (List.not_mem_nil w)
  | w0 :: rest, out, h, w, hw => by
    rw [solve] at h
    cases hk : keeps g w0 with
    | none =>
      rw [hk] at h
      simp at h
    | some k =>
      rw [hk] at h
      cases hr : solve g rest with
      | none =>
        rw [hr] at h
        simp at h
      | some rest_out =>
        rcases List.mem_cons.mp hw with rfl | hw2
        · simp [hk]
        · exact keeps_isSome_of_solve g rest rest_out hr w hw2

/-- Representation of solve as the filter by its keep test whenever no word panicked. -/
lemma solve_eq_filter (g : Game) :
    ∀ (ws : List Word), (∀ w ∈ ws, (keeps g w).isSome = true) →
      solve g ws = some (ws.filter (fun w => (keeps g w).getD false))
  | [], _ => by simp [solve]
  | w0 :: rest, h => by
    rcases Option.isSome_iff_exists.mp (h w0 (by simp)) with ⟨k, hk⟩
    have ih := solve_eq_filter g rest (fun w hw => h w (by simp [hw]))
    rw [solve, hk, ih]
    cases k <;> simp [List.filter_cons, hk]

/-- Claim C1: for every playfield, wrong-letter set and candidate list, a
defined output of solve is a subsequence of its input: every output word
occurs in the input, none is added, and the relative order is preserved. -/
theorem solve_sublist (g : Game) (ws out : List Word) (h : solve g ws = some out) :
    List.Sublist out ws := by
  have hk := keeps_isSome_of_solve g ws out h
  rw [solve_eq_filter g ws hk] at h
  injection h with h
  exact h ▸ List.filter_sublist ws

/-- Witness for claim C1 at a concrete game state and candidate list. -/
theorem solve_sublist_witness :
    solve ⟨.swedish, .five, ['A', '-', '-', '-', '-'], []⟩
        [['b', 'o', 'n', 'u', 's'], ['a', 'l', 'o', 'h', 'a']] =
      some [['a', 'l', 'o', 'h', 'a']] ∧
    List.Sublist [['a', 'l', 'o', 'h', 'a']]
      [['b', 'o', 'n', 'u', 's'], ['a', 'l', 'o', 'h', 'a']] :=
  ⟨by decide,
   solve_sublist ⟨.swedish, .five, ['A', '-', '-', '-', '-'], []⟩
     [['b', 'o', 'n', 'u', 's'], ['a', 'l', 'o', 'h', 'a']]
     [['a', 'l', 'o', 'h', 'a']] (by decide)⟩

/-- Claim C8: solve is idempotent: feeding a defined output of solve back
in with the same game state reproduces that output. -/
theorem solve_idempotent (g : Game) (ws : List Word) :
    (solve g ws).bind (solve g) = solve g ws := by
  cases hs : solve g ws with
  | none => rfl
  | some out =>
    show solve g out = some out
    have hk := keeps_isSome_of_solve g ws out hs
    have hfil : out = ws.filter (fun w => (keeps g w).getD false) := by
      have hrep := solve_eq_filter g ws hk
      rw [hs] at hrep
      injection hrep
    have hk2 : ∀ w ∈ out, (keeps g w).isSome = true := by
      intro w hw
      rw [hfil] at hw
      exact hk w (List.mem_filter.mp hw).1
    have hrep2 := solve_eq_filter g out hk2
    have hself : out.filter (fun w => (keeps g w).getD false) = out := by
      apply List.filter_eq_self.mpr
      intro w hw
      rw [hfil] at hw
      exact (List.mem_filter.mp hw).2
    rw [hrep2, hself]

/-- Claim C9: under the matching-lengths precondition every playfield
access of solve is in bounds, the panic branch is unreachable, and solve
returns a defined, possibly empty, list. -/
theorem solve_total (g : Game) (ws : List Word)
    (h : ∀ w ∈ ws, w.length = g.playfield.length) :
    ∃ out, solve g ws = some out := by
  refine ⟨_, solve_eq_filter g ws ?_⟩
  intro w hw
  have hlen := h w hw
  simp only [keeps]
  apply check_slots_isSome
  intro j hj
  omega

/-- Witness for claim C9 at a concrete game state and candidate list. -/
theorem solve_total_witness :
    (∀ w ∈ [['s', 'p', 'a', 'd', 'e'], ['r', 'i', 'b', 'b', 'a']],
        w.length = (Game.mk .swedish .five ['-', '-', 'a', '-', '-'] ['q']).playfield.length) ∧
    ∃ out, solve (Game.mk .swedish .five ['-', '-', 'a', '-', '-'] ['q'])
        [['s', 'p', 'a', 'd', 'e'], ['r', 'i', 'b', 'b', 'a']] = some out :=
  ⟨by decide,
   solve_total (Game.mk .swedish .five ['-', '-', 'a', '-', '-'] ['q'])
     [['s', 'p', 'a', 'd', 'e'], ['r', 'i', 'b', 'b', 'a']] (by decide)⟩

/-- A word of a defined output of solve is an input word that passed every
slot test of the scan. -/
lemma mem_solve_passes (g : Game) (ws out : List Word) (h : solve g ws = some out)
    (w : Word) (hw : w ∈ out) :
    w ∈ ws ∧ ∀ (j : Nat) (letter : Char), w[j]? = some letter →
      ∃ pf, g.playfield[j]? = some pf ∧
        locked_reject pf letter = false ∧
        misplaced_reject w pf letter = false ∧
        wrong_letter_reject g pf letter = false := by
  have hk := keeps_isSome_of_solve g ws out h
  have hrep := solve_eq_filter g ws hk
  rw [h] at hrep
  have hfil : out = ws.filter (fun w => (keeps g w).getD false) := by injection hrep
  rw [hfil] at hw
  have hmem := (List.mem_filter.mp hw).1
  have hp := (List.mem_filter.mp hw).2
  have hkt : keeps g w = some true := by
    rcases Option.isSome_iff_exists.mp (hk w hmem) with ⟨b, hb⟩
    rw [hb] at hp
    simp at hp
    rw [hb, hp]
  refine ⟨hmem, ?_⟩
  have hpass := (check_slots_eq_some_true g w w 0).mp (by simpa [keeps] using hkt)
  intro j letter hj
  have h2 := hpass j letter hj
  simpa using h2

/-- Claim C4: locked-slot soundness: when slot i carries an uppercase mark
c, every surviving word has the lowercase form of c at position i, and
every input word with a different letter there is excluded. -/
theorem solve_locked_soundness (g : Game) (ws out : List Word) (i : Nat) (c : Char)
    (hpf : g.playfield[i]? = some c) (hc : is_uppercase c = true)
    (hlen : ∀ w ∈ ws, w.length = g.playfield.length)
    (hs : solve g ws = some out) :
    (∀ w ∈ out, w[i]? = some (to_lowercase c)) ∧
      (∀ w ∈ ws, ∀ d, w[i]? = some d → d ≠ to_lowercase c → w ∉ out) := by
  have hkeep : ∀ w ∈ out, w[i]? = some (to_lowercase c) := by
    intro w hw
    obtain ⟨hmem, hpass⟩ := mem_solve_passes g ws out hs w hw
    have hi : i < g.playfield.length := (List.getElem?_eq_some.mp hpf).1
    have hiw : i < w.length := by rw [hlen w hmem]; exact hi
    have hl : w[i]? = some w[i] := List.getElem?_eq_getElem hiw
    obtain ⟨pf, hpf2, hlock, -, -⟩ := hpass i w[i] hl
    rw [hpf] at hpf2
    injection hpf2 with hpf2
    subst hpf2
    have hlet : w[i] = to_lowercase c := by
      by_contra hne
      simp [locked_reject, hc, hne] at hlock
    rw [hl, hlet]
  refine ⟨hkeep, ?_⟩
  intro w _ d hd hne hmem
  have hval := hkeep w hmem
  rw [hd] at hval
  injection hval with hval
  exact hne hval

/-- Witness for claim C4: slot zero is locked to the letter a, the word
aloha survives with a there, and the word bonus is excluded. -/
theorem solve_locked_soundness_witness :
    (Game.mk .swedish .five ['A', '-', '-', '-', '-'] []).playfield[0]? = some 'A' ∧
    ((∀ w ∈ [['a', 'l', 'o', 'h', 'a']], w[0]? = some (to_lowercase 'A')) ∧
      (∀ w ∈ [['b', 'o', 'n', 'u', 's'], ['a', 'l', 'o', 'h', 'a']], ∀ d, w[0]? = some d →
        d ≠ to_lowercase 'A' → w ∉ [['a', 'l', 'o', 'h', 'a']])) :=
  ⟨by decide,
   solve_locked_soundness (Game.mk .swedish .five ['A', '-', '-', '-', '-'] [])
     [['b', 'o', 'n', 'u', 's'], ['a', 'l', 'o', 'h', 'a']] [['a', 'l', 'o', 'h', 'a']]
     0 'A' (by decide) (by decide) (by decide) (by decide)⟩

/-- Claim C3: misplaced-slot soundness: when slot i carries a lowercase
mark c, every surviving word contains c somewhere but not at position i,
under the stated length and lowercase-candidate preconditions. -/
theorem solve_misplaced_soundness (g : Game) (ws out : List Word) (i : Nat) (c : Char)
    (hpf : g.playfield[i]? = some c) (hc : is_lowercase c = true)
    (hlen : ∀ w ∈ ws, w.length = g.playfield.length)
    (_hlow : ∀ w ∈ ws, ∀ ch ∈ w, is_lowercase ch = true)
    (hs : solve g ws = some out) :
    ∀ w ∈ out, c ∈ w ∧ w[i]? ≠ some c := by
  intro w hw
  obtain ⟨hmem, hpass⟩ := mem_solve_passes g ws out hs w hw
  have hi : i < g.playfield.length := (List.getElem?_eq_some.mp hpf).1
  have hiw : i < w.length := by rw [hlen w hmem]; exact hi
  have hl : w[i]? = some w[i] := List.getElem?_eq_getElem hiw
  obtain ⟨pf, hpf2, -, hmis, -⟩ := hpass i w[i] hl
  rw [hpf] at hpf2
  injection hpf2 with hpf2
  subst hpf2
  rw [misplaced_reject] at hmis
  simp [hc] at hmis
  obtain ⟨hcont, hne⟩ := hmis
  constructor
  · exact hcont
  · rw [hl]
    intro hcontra
    injection hcontra with hcontra
    exact hne hcontra

/-- Witness for claim C3: slot one carries the misplaced mark s and the
surviving word asdfg has an s, though not in slot one. -/
theorem solve_misplaced_soundness_witness :
    (Game.mk .swedish .five ['-', 's', '-', '-', '-'] []).playfield[1]? = some 's' ∧
    (∀ w ∈ [['s', 'a', 'd', 'f', 'g']], 's' ∈ w ∧ w[1]? ≠ some 's') :=
  ⟨by decide,
   solve_misplaced_soundness (Game.mk .swedish .five ['-', 's', '-', '-', '-'] [])
     [['s', 'a', 'd', 'f', 'g']] [['s', 'a', 'd', 'f', 'g']] 1 's'
     (by decide) (by decide) (by decide) (by decide) (by decide)⟩

/-- Claim C2 fails as stated: the letter a is locked in slot zero, a is
also reported among the wrong letters, and the candidate aloha carries a
in slot four; the claim exempts a word whose wrong letter is locked in
another slot, yet solve rejects aloha, and the rejection comes from the
wrong-letters rule alone, for dropping a from the wrong letters keeps the
word. -/
theorem solve_wrong_letter_counterexample :
    solve (Game.mk .swedish .five ['A', '-', '-', '-', '-'] ['a'])
        [['a', 'l', 'o', 'h', 'a']] = some [] ∧
    solve (Game.mk .swedish .five ['A', '-', '-', '-', '-'] [])
        [['a', 'l', 'o', 'h', 'a']] = some [['a', 'l', 'o', 'h', 'a']] :=
  ⟨by decide, by decide⟩

/-- Claim C2 (amended): wrong-letter soundness for survivors: a surviving
word never carries, at any slot, a letter of the wrong-letter set unless
the uppercase form of that letter is the locked mark of that very slot or
the letter occurs, in its exact lowercase form, somewhere in the playfield
as a misplaced mark; a locked mark in another slot grants no exemption. -/
theorem solve_wrong_letter_soundness (g : Game) (ws out : List Word)
    (hs : solve g ws = some out) :
    ∀ w ∈ out, ∀ (i : Nat) (letter : Char), w[i]? = some letter → letter ∈ g.wrongLetters →
      ∃ pf, g.playfield[i]? = some pf ∧
        (to_uppercase letter = pf ∨ letter ∈ g.playfield) := by
  intro w hw i letter hl hwrong
  obtain ⟨hmem, hpass⟩ := mem_solve_passes g ws out hs w hw
  obtain ⟨pf, hpf, -, -, hwl⟩ := hpass i letter hl
  refine ⟨pf, hpf, ?_⟩
  by_contra hcon
  push_neg at hcon
  obtain ⟨hne, hnotmem⟩ := hcon
  rw [wrong_letter_reject] at hwl
  simp [hwrong, hne, hnotmem] at hwl

/-- Witness for claim C2 (amended): the wrong letter s survives in slot
one of asdfg because s is a misplaced mark of the playfield. -/
theorem solve_wrong_letter_soundness_witness :
    solve (Game.mk .swedish .five ['s', '-', '-', '-', '-'] ['s'])
        [['a', 's', 'd', 'f', 'g']] = some [['a', 's', 'd', 'f', 'g']] ∧
    (∀ w ∈ [['a', 's', 'd', 'f', 'g']], ∀ (i : Nat) (letter : Char), w[i]? = some letter →
      letter ∈ (Game.mk .swedish .five ['s', '-', '-', '-', '-'] ['s']).wrongLetters →
      ∃ pf, (Game.mk .swedish .five ['s', '-', '-', '-', '-'] ['s']).playfield[i]? = some pf ∧
        (to_uppercase letter = pf ∨
          letter ∈ (Game.mk .swedish .five ['s', '-', '-', '-', '-'] ['s']).playfield)) :=
  ⟨by decide,
   solve_wrong_letter_soundness (Game.mk .swedish .five ['s', '-', '-', '-', '-'] ['s'])
     [['a', 's', 'd', 'f', 'g']] [['a', 's', 'd', 'f', 'g']] (by decide)⟩

/-- The grouping loop leaves the map unchanged when every word scores no
hit. -/
lemma build_groups_of_no_hits (filtered : List Char) :
    ∀ (ws : List Word) (m : List (Nat × List Word)),
      (∀ w ∈ ws, hits filtered w = []) → build_groups filtered m ws = m
  | [], _, _ => rfl
  | w :: rest, m, h => by
    have hw : hits filtered w = [] := h w (by simp)
    rw [build_groups, hw]
    simp only [List.isEmpty_nil, Bool.not_true, Bool.false_eq_true, if_false]
    exact build_groups_of_no_hits filtered rest m (fun w2 hw2 => h w2 (by simp [hw2]))

/-- Claim C5: common-letter fallback: when every candidate contains none
of the remaining high-frequency letters, words_with_common_letters returns
its input list unchanged, same words in the same order. -/
theorem words_with_common_letters_fallback (g : Game) (ws : List Word)
    (h : ∀ w ∈ ws, ∀ c ∈ filtered_common_letters g, c ∉ w) :
    words_with_common_letters ws g = ws := by
  have hh : ∀ w ∈ ws, hits (filtered_common_letters g) w = [] := by
    intro w hw
    rw [hits, List.filter_eq_nil_iff]
    intro c hc
    simpa using h w hw c hc
  rw [words_with_common_letters, build_groups_of_no_hits _ _ _ hh]
  rfl

/-- Witness for claim C5: no candidate contains a remaining high-frequency
letter, so the filter hands back the candidate list untouched. -/
theorem words_with_common_letters_fallback_witness :
    (∀ w ∈ [['q', 'u'], ['z', 'o']],
      ∀ c ∈ filtered_common_letters (Game.mk .swedish .five ['-', '-', '-', '-', '-'] []),
        c ∉ w) ∧
    words_with_common_letters [['q', 'u'], ['z', 'o']]
        (Game.mk .swedish .five ['-', '-', '-', '-', '-'] []) =
      [['q', 'u'], ['z', 'o']] :=
  ⟨by decide,
   words_with_common_letters_fallback (Game.mk .swedish .five ['-', '-', '-', '-', '-'] [])
     [['q', 'u'], ['z', 'o']] (by decide)⟩

/-- Claim C7 fails as stated: the letter j is locked, uppercase, into slot
zero; the claim removes j from the rejection list, keeping the word j, yet
the retain call compares the exact lowercase letter only, so the code
keeps j on the list and rejects the word. -/
theorem words_without_uncommon_letters_counterexample :
    words_without_uncommon_letters (Game.mk .swedish .five ['J', '-', '-', '-', '-'] [])
        [['j', 'o']] = [] ∧
    words_without_uncommon_letters_per_claim (Game.mk .swedish .five ['J', '-', '-', '-', '-'] [])
        [['j', 'o']] = [['j', 'o']] :=
  ⟨by decide, by decide⟩

/-- Claim C7 (amended): a word passes words_without_uncommon_letters
exactly when it is an input word containing none of the uncommon letters
of the language that are absent from the playfield in their exact
lowercase form; an uppercase locked mark does not remove a letter from the
rejection list. -/
theorem words_without_uncommon_letters_mem (g : Game) :
    ∀ (ws : List Word) (w : Word),
      w ∈ words_without_uncommon_letters g ws ↔
        w ∈ ws ∧ ∀ c ∈ uncommon_letters g.language, c ∉ g.playfield → c ∉ w
  | [], w => by simp [words_without_uncommon_letters]
  | w0 :: rest, w => by
    rw [words_without_uncommon_letters]
    by_cases hT : ((used_uncommon_letters g).any (fun c => w0.contains c)) = true
    · simp only [hT, Bool.not_true, Bool.false_eq_true, if_false]
      rw [words_without_uncommon_letters_mem g rest w]
      constructor
      · rintro ⟨hmem, hall⟩
        exact ⟨by simp [hmem], hall⟩
      · rintro ⟨hmem, hall⟩
        rcases List.mem_cons.mp hmem with rfl | hmem2
        · exfalso
          rcases List.any_eq_true.mp hT with ⟨c, hc, hcc⟩
          have hcf := List.mem_filter.mp hc
          exact absurd (by simpa using hcc) (hall c hcf.1 (by simpa using hcf.2))
        · exact ⟨hmem2, hall⟩
    · have hF : ((used_uncommon_letters g).any (fun c => w0.contains c)) = false := by
        simpa using hT
      simp only [hF, Bool.not_false, if_true]
      rw [List.mem_cons, words_without_uncommon_letters_mem g rest w]
      constructor
      · rintro (rfl | ⟨hmem, hall⟩)
        · refine ⟨by simp, ?_⟩
          intro c hc hcpf hcw
          have hcu : c ∈ used_uncommon_letters g :=
            List.mem_filter.mpr ⟨hc, by simpa using hcpf⟩
          have hany : ((used_uncommon_letters g).any (fun c => w.contains c)) = true :=
            List.any_eq_true.mpr ⟨c, hcu, by simpa using hcw⟩
          rw [hF] at hany
          cases hany
        · exact ⟨by simp [hmem], hall⟩
      · rintro ⟨hmem, hall⟩
        rcases List.mem_cons.mp hmem with rfl | hmem2
        · exact Or.inl rfl
        · exact Or.inr ⟨hmem2, hall⟩

/-- Inserting a word under key k appends it to the group of k. -/
lemma lookup_insert_self : ∀ (m : List (Nat × List Word)) (k : Nat) (w : Word),
    lookup_group (insert_group m k w) k = some ((lookup_group m k).getD [] ++ [w])
  | [], k, w => by simp [insert_group, lookup_group]
  | (j, v) :: rest, k, w => by
    by_cases hjk : j = k
    · subst hjk
      simp [insert_group, lookup_group]
    · simp [insert_group, lookup_group, hjk, lookup_insert_self rest k w]

/-- Inserting under key k does not disturb the group of another key. -/
lemma lookup_insert_ne : ∀ (m : List (Nat × List Word)) (k k2 : Nat) (w : Word), k2 ≠ k →
    lookup_group (insert_group m k w) k2 = lookup_group m k2
  | [], k, k2, w, h => by
    have hkk : ¬k = k2 := fun e => h (Eq.symm e)
    simp [insert_group, lookup_group, hkk]
  | (j, v) :: rest, k, k2, w, h => by
    by_cases hjk : j = k
    · subst hjk
      have hjk2 : j ≠ k2 := fun e => h (Eq.symm e)
      simp [insert_group, lookup_group, hjk2]
    · by_cases hjk2 : j = k2
      · subst hjk2
        simp [insert_group, lookup_group, hjk]
      · simp [insert_group, lookup_group, hjk, hjk2, lookup_insert_ne rest k k2 w h]

/-- Inserting a word either reuses an existing key or appends the new key. -/
lemma entry_keys_insert : ∀ (m : List (Nat × List Word)) (k : Nat) (w : Word),
    entry_keys (insert_group m k w) =
      if k ∈ entry_keys m then entry_keys m else entry_keys m ++ [k]
  | [], k, w => by simp [insert_group, entry_keys]
  | (j, v) :: rest, k, w => by
    by_cases hjk : j = k
    · subst hjk
      simp [insert_group, entry_keys]
    · have hne : ¬k = j := fun e => hjk (Eq.symm e)
      rw [insert_group]
      simp only [hjk, if_false]
      have hcond : (k ∈ entry_keys ((j, v) :: rest)) ↔ k ∈ entry_keys rest := by
        simp [entry_keys, hne]
      have ih := entry_keys_insert rest k w
      by_cases hk : k ∈ entry_keys rest
      · rw [if_pos (hcond.mpr hk)]
        have ih2 : entry_keys (insert_group rest k w) = entry_keys rest := by
          rw [ih, if_pos hk]
        simp only [entry_keys, List.map_cons] at ih2 ⊢
        rw [ih2]
      · rw [if_neg (fun hc => hk (hcond.mp hc))]
        have ih2 : entry_keys (insert_group rest k w) = entry_keys rest ++ [k] := by
          rw [ih, if_neg hk]
        simp only [entry_keys, List.map_cons] at ih2 ⊢
        rw [ih2]
        rfl

/-- Insertion preserves distinctness of the keys. -/
lemma entry_keys_nodup_insert (m : List (Nat × List Word)) (k : Nat) (w : Word)
    (h : (entry_keys m).Nodup) : (entry_keys (insert_group m k w)).Nodup := by
  rw [entry_keys_insert]
  by_cases hk : k ∈ entry_keys m
  · simp [hk, h]
  · simp [hk, List.nodup_append, h]

/-- Every key of the grouped entries is an old key or a word score. -/
lemma entry_keys_build_mem (filtered : List Char) :
    ∀ (ws : List Word) (m : List (Nat × List Word)) (k : Nat),
      k ∈ entry_keys (build_groups filtered m ws) →
        k ∈ entry_keys m ∨ ∃ w ∈ ws, score filtered w = k
  | [], m, k, h => Or.inl h
  | w :: rest, m, k, h => by
    rw [build_groups] at h
    by_cases hw : (hits filtered w).isEmpty = true
    · rw [hw] at h
      simp only [Bool.not_true, Bool.false_eq_true, if_false] at h
      rcases entry_keys_build_mem filtered rest m k h with h1 | ⟨w2, hw2, hs2⟩
      · exact Or.inl h1
      · exact Or.inr ⟨w2, by simp [hw2], hs2⟩
    · have hw2 : (hits filtered w).isEmpty = false := by simpa using hw
      rw [hw2] at h
      simp only [Bool.not_false, if_true] at h
      rcases entry_keys_build_mem filtered rest (insert_group m (hits filtered w).length w) k h with
        h1 | ⟨w2, hw2m, hs2⟩
      · rw [entry_keys_insert] at h1
        by_cases hk : (hits filtered w).length ∈ entry_keys m
        · rw [if_pos hk] at h1
          exact Or.inl h1
        · rw [if_neg hk] at h1
          rcases List.mem_append.mp h1 with h2 | h2
          · exact Or.inl h2
          · have : k = (hits filtered w).length := by simpa using h2
            exact Or.inr ⟨w, by simp, this.symm⟩
      · exact Or.inr ⟨w2, by simp [hw2m], hs2⟩

/-- The grouping loop preserves distinctness of the keys. -/
lemma nodup_keys_build (filtered : List Char) :
    ∀ (ws : List Word) (m : List (Nat × List Word)),
      (entry_keys m).Nodup → (entry_keys (build_groups filtered m ws)).Nodup
  | [], _, h => h
  | w :: rest, m, h => by
    rw [build_groups]
    by_cases hw : (hits filtered w).isEmpty = true
    · rw [hw]
      simp only [Bool.not_true, Bool.false_eq_true, if_false]
      exact nodup_keys_build filtered rest m h
    · have hw2 : (hits filtered w).isEmpty = false := by simpa using hw
      rw [hw2]
      simp only [Bool.not_false, if_true]
      exact nodup_keys_build filtered rest _ (entry_keys_nodup_insert m _ w h)

/-- The group of a nonzero key k after the grouping loop: the words of
score k, in input order, appended to whatever the key held before. -/
lemma lookup_build (filtered : List Char) :
    ∀ (ws : List Word) (m : List (Nat × List Word)) (k : Nat), k ≠ 0 →
      lookup_group (build_groups filtered m ws) k =
        if ws.filter (fun w => score filtered w == k) = []
        then lookup_group m k
        else some ((lookup_group m k).getD [] ++ ws.filter (fun w => score filtered w == k))
  | [], m, k, _ => by simp [build_groups]
  | w :: rest, m, k, hk => by
    rw [build_groups]
    by_cases hsw : score filtered w = 0
    · have hemp : (hits filtered w).isEmpty = true := by
        rw [score] at hsw
        simp [List.length_eq_zero.mp hsw]
      rw [hemp]
      simp only [Bool.not_true, Bool.false_eq_true, if_false]
      have hne2 : ¬score filtered w = k := by
        rw [hsw]
        exact fun e => hk (Eq.symm e)
      have hne : (score filtered w == k) = false := by simp [hne2]
      rw [List.filter_cons, hne]
      simp only [Bool.false_eq_true, if_false]
      exact lookup_build filtered rest m k hk
    · have hemp : (hits filtered w).isEmpty = false := by
        rw [score] at hsw
        cases hh : hits filtered w with
        | nil => rw [hh] at hsw; simp at hsw
        | cons a l => simp
      rw [hemp]
      simp only [Bool.not_false, if_true]
      by_cases heq : score filtered w = k
      · have htrue : (score filtered w == k) = true := by simp [heq]
        rw [List.filter_cons, htrue]
        simp only [if_true]
        have ih := lookup_build filtered rest (insert_group m (hits filtered w).length w) k hk
        rw [ih]
        have hsame : (hits filtered w).length = k := heq
        rw [hsame, lookup_insert_self m k w]
        by_cases hrest : rest.filter (fun w => score filtered w == k) = []
        · simp [hrest]
        · simp [hrest]
      · have hfalse : (score filtered w == k) = false := by simp [heq]
        rw [List.filter_cons, hfalse]
        simp only [Bool.false_eq_true, if_false]
        have ih := lookup_build filtered rest (insert_group m (hits filtered w).length w) k hk
        have hlen_ne : ¬(hits filtered w).length = k := heq
        rw [ih, lookup_insert_ne m ((hits filtered w).length) k w
          (fun e => hlen_ne (Eq.symm e))]

/-- A successful lookup certifies membership of the entry. -/
lemma mem_of_lookup : ∀ (m : List (Nat × List Word)) (k : Nat) (v : List Word),
    lookup_group m k = some v → (k, v) ∈ m
  | [], _, _, h => by simp [lookup_group] at h
  | (j, v0) :: rest, k, v, h => by
    rw [lookup_group] at h
    by_cases hjk : j = k
    · subst hjk
      rw [if_pos rfl] at h
      injection h with h
      subst h
      simp
    · rw [if_neg hjk] at h
      exact List.mem_cons_of_mem _ (mem_of_lookup rest k v h)

/-- The fold behind max_by_key lands on a reachable entry whose key
dominates the keys of the best so far and of every later entry. -/
lemma max_by_key_entry_spec : ∀ (rest : List (Nat × List Word)) (best : Nat × List Word),
    (max_by_key_entry best rest = best ∨ max_by_key_entry best rest ∈ rest) ∧
      best.1 ≤ (max_by_key_entry best rest).1 ∧
      ∀ e ∈ rest, e.1 ≤ (max_by_key_entry best rest).1
  | [], best => ⟨Or.inl rfl, Nat.le_refl _, by simp⟩
  | e :: rest, best => by
    rw [max_by_key_entry]
    by_cases hb : best.1 ≤ e.1
    · rw [if_pos hb]
      obtain ⟨hmem, hle, hall⟩ := max_by_key_entry_spec rest e
      refine ⟨?_, ?_, ?_⟩
      · rcases hmem with h1 | h1
        · exact Or.inr (by simp [h1])
        · exact Or.inr (by simp [h1])
      · exact Nat.le_trans hb hle
      · intro x hx
        rcases List.mem_cons.mp hx with rfl | hx2
        · exact hle
        · exact hall x hx2
    · rw [if_neg hb]
      obtain ⟨hmem, hle, hall⟩ := max_by_key_entry_spec rest best
      have heb : e.1 ≤ best.1 := Nat.le_of_not_le hb
      refine ⟨?_, ?_, ?_⟩
      · rcases hmem with h1 | h1
        · exact Or.inl h1
        · exact Or.inr (by simp [h1])
      · exact hle
      · intro x hx
        rcases List.mem_cons.mp hx with rfl | hx2
        · exact Nat.le_trans heb hle
        · exact hall x hx2

/-- The selected entry belongs to the map and its key dominates all keys. -/
lemma max_entry_spec (m : List (Nat × List Word)) (e : Nat × List Word)
    (h : max_entry m = some e) : e ∈ m ∧ ∀ x ∈ m, x.1 ≤ e.1 := by
  cases m with
  | nil => simp [max_entry] at h
  | cons e0 rest =>
    rw [max_entry] at h
    injection h with h
    obtain ⟨hmem, hle, hall⟩ := max_by_key_entry_spec rest e0
    subst h
    refine ⟨?_, ?_⟩
    · rcases hmem with h1 | h1
      · simp [h1]
      · simp [h1]
    · intro x hx
      rcases List.mem_cons.mp hx with rfl | hx2
      · exact hle
      · exact hall x hx2

/-- With distinct keys, entries sharing a key coincide. -/
lemma eq_of_mem_nodup_keys (m : List (Nat × List Word)) (h : (entry_keys m).Nodup)
    (a : Nat × List Word) (ha : a ∈ m) (b : Nat × List Word) (hb : b ∈ m)
    (hab : a.1 = b.1) : a = b :=
  List.inj_on_of_nodup_map h ha hb hab

/-- With distinct keys, any member whose key dominates all keys is the
entry that max_by_key selects. -/
lemma max_entry_eq_of_max (m : List (Nat × List Word)) (e : Nat × List Word)
    (hnd : (entry_keys m).Nodup) (hmem : e ∈ m) (hmax : ∀ x ∈ m, x.1 ≤ e.1) :
    max_entry m = some e := by
  cases m with
  | nil => cases hmem
  | cons e0 rest =>
    have hsp := max_entry_spec (e0 :: rest) (max_by_key_entry e0 rest) (by rw [max_entry])
    have hle : (max_by_key_entry e0 rest).1 ≤ e.1 := hmax _ hsp.1
    have hge : e.1 ≤ (max_by_key_entry e0 rest).1 := hsp.2 e hmem
    have heq := eq_of_mem_nodup_keys (e0 :: rest) hnd e hmem _ hsp.1
      (Nat.le_antisymm hge hle)
    rw [max_entry, ← heq]

/-- No score exceeds max_score, starting from any accumulator. -/
lemma foldl_max_le (filtered : List Char) :
    ∀ (ws : List Word) (acc : Nat),
      acc ≤ ws.foldl (fun a w => Nat.max a (score filtered w)) acc ∧
      ∀ w ∈ ws, score filtered w ≤ ws.foldl (fun a w => Nat.max a (score filtered w)) acc
  | [], acc => ⟨Nat.le_refl _, by simp⟩
  | w :: rest, acc => by
    obtain ⟨hacc, hall⟩ := foldl_max_le filtered rest (Nat.max acc (score filtered w))
    refine ⟨?_, ?_⟩
    · exact Nat.le_trans (Nat.le_max_left _ _) hacc
    · intro w2 hw2
      rcases List.mem_cons.mp hw2 with rfl | hw3
      · exact Nat.le_trans (Nat.le_max_right _ _) hacc
      · exact hall w2 hw3

/-- The running maximum is the accumulator or the score of some word. -/
lemma foldl_max_mem (filtered : List Char) :
    ∀ (ws : List Word) (acc : Nat),
      ws.foldl (fun a w => Nat.max a (score filtered w)) acc = acc ∨
      ∃ w ∈ ws, ws.foldl (fun a w => Nat.max a (score filtered w)) acc = score filtered w
  | [], acc => Or.inl rfl
  | w :: rest, acc => by
    simp only [List.foldl_cons]
    rcases foldl_max_mem filtered rest (Nat.max acc (score filtered w)) with h1 | ⟨w2, hw2, he⟩
    · rcases Nat.le_total (score filtered w) acc with hsa | has
      · exact Or.inl (h1.trans (Nat.max_eq_left hsa))
      · exact Or.inr ⟨w, by simp, h1.trans (Nat.max_eq_right has)⟩
    · exact Or.inr ⟨w2, by simp [hw2], he⟩

/-- Claim C6 fails as stated: the playfield holds a lowercase misplaced
mark e; the claim removes e from the scoring pool, so only the candidate
holding the letter a forms the maximum-score group, yet the retain call
tests the uppercase form only, so the code scores both candidates one and
returns both. -/
theorem words_with_common_letters_counterexample :
    words_with_common_letters [['e', 'q'], ['a', 'q']]
        (Game.mk .swedish .five ['e', '-', '-', '-', '-'] []) = [['e', 'q'], ['a', 'q']] ∧
    words_with_common_letters_per_claim [['e', 'q'], ['a', 'q']]
        (Game.mk .swedish .five ['e', '-', '-', '-', '-'] []) = [['a', 'q']] :=
  ⟨by decide, by decide⟩

/-- Claim C6 (amended): the scoring pool is the fixed high-frequency list
of the language minus every letter whose uppercase form, a locked mark,
occurs in the playfield, lowercase misplaced marks removing nothing; when
some candidate scores a hit, the result is exactly the group of candidates
of maximal score, in input order. -/
theorem words_with_common_letters_max_group (g : Game) (ws : List Word)
    (h : ∃ w ∈ ws, score (filtered_common_letters g) w ≠ 0) :
    words_with_common_letters ws g =
      ws.filter (fun w =>
        score (filtered_common_letters g) w ==
          max_score (filtered_common_letters g) ws) := by
  obtain ⟨w0, hw0, hs0⟩ := h
  have hMpos : max_score (filtered_common_letters g) ws ≠ 0 := by
    have := (foldl_max_le (filtered_common_letters g) ws 0).2 w0 hw0
    rw [max_score]
    omega
  have hMmem : ∃ w ∈ ws, score (filtered_common_letters g) w =
      max_score (filtered_common_letters g) ws := by
    rcases foldl_max_mem (filtered_common_letters g) ws 0 with h0 | ⟨w1, hw1, he⟩
    · exact absurd h0 hMpos
    · exact ⟨w1, hw1, he.symm⟩
  have hGne : ws.filter (fun w => score (filtered_common_letters g) w ==
      max_score (filtered_common_letters g) ws) ≠ [] := by
    obtain ⟨w1, hw1, hsc⟩ := hMmem
    intro hc
    have hin : w1 ∈ ws.filter (fun w => score (filtered_common_letters g) w ==
        max_score (filtered_common_letters g) ws) :=
      List.mem_filter.mpr ⟨hw1, by simp [hsc]⟩
    rw [hc] at hin
    cases hin
  have hlook : lookup_group (build_groups (filtered_common_letters g) [] ws)
      (max_score (filtered_common_letters g) ws) =
      some (ws.filter (fun w => score (filtered_common_letters g) w ==
        max_score (filtered_common_letters g) ws)) := by
    rw [lookup_build (filtered_common_letters g) ws [] _ hMpos]
    simp [hGne, lookup_group]
  have hmem := mem_of_lookup _ _ _ hlook
  have hnd : (entry_keys (build_groups (filtered_common_letters g) [] ws)).Nodup :=
    nodup_keys_build (filtered_common_letters g) ws [] (by simp [entry_keys])
  have hdom : ∀ x ∈ build_groups (filtered_common_letters g) [] ws,
      x.1 ≤ max_score (filtered_common_letters g) ws := by
    intro x hx
    have hk : x.1 ∈ entry_keys (build_groups (filtered_common_letters g) [] ws) :=
      List.mem_map_of_mem Prod.fst hx
    rcases entry_keys_build_mem (filtered_common_letters g) ws [] x.1 hk with
      h0 | ⟨w2, hw2, hsc⟩
    · simp [entry_keys] at h0
    · rw [← hsc, max_score]
      exact (foldl_max_le (filtered_common_letters g) ws 0).2 w2 hw2
  have hme := max_entry_eq_of_max _ _ hnd hmem hdom
  rw [words_with_common_letters, pick_max_group, hme]

/-- Witness for claim C6 (amended) at a concrete game and candidates. -/
theorem words_with_common_letters_max_group_witness :
    (∃ w ∈ [['e', 'q'], ['e', 'a', 'q']], score
      (filtered_common_letters (Game.mk .swedish .five ['-', '-', '-', '-', '-'] [])) w ≠ 0) ∧
    words_with_common_letters [['e', 'q'], ['e', 'a', 'q']]
        (Game.mk .swedish .five ['-', '-', '-', '-', '-'] []) =
      List.filter (fun w =>
        score (filtered_common_letters (Game.mk .swedish .five ['-', '-', '-', '-', '-'] [])) w ==
          max_score (filtered_common_letters (Game.mk .swedish .five ['-', '-', '-', '-', '-'] []))
            [['e', 'q'], ['e', 'a', 'q']]) [['e', 'q'], ['e', 'a', 'q']] :=
  ⟨by decide,
   words_with_common_letters_max_group (Game.mk .swedish .five ['-', '-', '-', '-', '-'] [])
     [['e', 'q'], ['e', 'a', 'q']] (by decide)⟩

/-- Claim C10: the selection of words_with_common_letters is independent
of the iteration order of the hash map: every permutation of the grouped
entries yields the same result, because the keys of the map are distinct,
so the maximal key and its group, built in input order, are unique. -/
theorem words_with_common_letters_deterministic (g : Game) (ws : List Word)
    (m : List (Nat × List Word))
    (hperm : m.Perm (build_groups (filtered_common_letters g) [] ws)) :
    pick_max_group ws m = words_with_common_letters ws g := by
  rw [words_with_common_letters]
  have hnd : (entry_keys (build_groups (filtered_common_letters g) [] ws)).Nodup :=
    nodup_keys_build (filtered_common_letters g) ws [] (by simp [entry_keys])
  cases hme : max_entry (build_groups (filtered_common_letters g) [] ws) with
  | none =>
    have hb : build_groups (filtered_common_letters g) [] ws = [] := by
      cases hbm : build_groups (filtered_common_letters g) [] ws with
      | nil => rfl
      | cons e r => rw [hbm, max_entry] at hme; cases hme
    rw [hb] at hperm
    rw [List.Perm.eq_nil hperm, hb]
  | some e =>
    obtain ⟨hmem, hdom⟩ := max_entry_spec _ e hme
    have hmem2 : e ∈ m := hperm.mem_iff.mpr hmem
    have hdom2 : ∀ x ∈ m, x.1 ≤ e.1 := fun x hx => hdom x (hperm.mem_iff.mp hx)
    have hnd2 : (entry_keys m).Nodup := (hperm.map Prod.fst).nodup_iff.mpr hnd
    have hm2 := max_entry_eq_of_max m e hnd2 hmem2 hdom2
    rw [pick_max_group, hm2, pick_max_group, hme]

/-- Witness for claim C10: the two-entry map of a concrete run, fed in the
reversed order, still selects the same maximal group. -/
theorem words_with_common_letters_deterministic_witness :
    List.Perm [(2, [['e', 'a', 'q']]), (1, [['e', 'q']])]
      (build_groups
        (filtered_common_letters (Game.mk .swedish .five ['-', '-', '-', '-', '-'] []))
        [] [['e', 'q'], ['e', 'a', 'q']]) ∧
    pick_max_group [['e', 'q'], ['e', 'a', 'q']] [(2, [['e', 'a', 'q']]), (1, [['e', 'q']])] =
      words_with_common_letters [['e', 'q'], ['e', 'a', 'q']]
        (Game.mk .swedish .five ['-', '-', '-', '-', '-'] []) :=
  ⟨by decide,
   words_with_common_letters_deterministic (Game.mk .swedish .five ['-', '-', '-', '-', '-'] [])
     [['e', 'q'], ['e', 'a', 'q']] [(2, [['e', 'a', 'q']]), (1, [['e', 'q']])] (by decide)⟩

end Wordlehelper
